import Mathlib

/-!
Verification of the zipfs frequency-counting package (`src/zipf.go`).

The Go code is shallowly embedded as follows.

* `map[string]int64` becomes an association list `List (String × Int)` with
  unique keys; `mapLookup` mirrors Go map indexing with its `(value, ok)`
  comma-ok form, and `mapInsert` mirrors `m[k] = v` (replace the existing
  binding, otherwise append).  The list order stands in for Go's unspecified
  map iteration order: every property proved about `Report` below is
  insensitive to which order the map is enumerated in.
* Go `int64` arithmetic wraps; `wrap64` reduces an integer into the int64
  range `[-2^63, 2^63)` and is applied exactly where the source performs
  `count + 1` on an `int64`.
* The `io.Writer` field `out` is modelled as an explicit argument
  `w : String → Except String Unit` of `Zipf.Report`; the source discards the
  results of `fmt.Fprintf`, and the embedding likewise computes and discards
  the writer's results.
* `Zipf.Add` returns the post-state together with the returned error
  (`none` = Go `nil`), so that "a failing call does not mutate the receiver"
  is directly statable.
* The tokenizers `SplitWord` / `SplitSymbol` are not part of `src/zipf.go`;
  `Walk`'s per-line control flow is therefore parameterised by two arbitrary
  splitter functions `String → Except String (List String)`.
* `filepath.Walk` visiting the regular files under a directory is abstracted
  into folding over a list of files, each given as its list of lines
  (`Zipf.WalkFiles`); I/O itself is outside the embedded fragment.
-/

namespace Zipfs

/-- Reduction of an integer into the Go `int64` range: two's-complement
wraparound into `[-2^63, 2^63)`. -/
def wrap64 (x : Int) : Int :=
  (x + 2 ^ 63) % 2 ^ 64 - 2 ^ 63

/-- Go map read `m[k]` in comma-ok form: `some v` when the key is bound. -/
def mapLookup : List (String × Int) → String → Option Int
  | [], _ => none
  | (k0, v0) :: rest, k => if k0 = k then some v0 else mapLookup rest k

/-- Go map write `m[k] = v`: replace the binding of `k` when present,
otherwise add it. -/
def mapInsert : List (String × Int) → String → Int → List (String × Int)
  | [], k, v => [(k, v)]
  | (k0, v0) :: rest, k, v =>
      if k0 = k then (k, v) :: rest else (k0, v0) :: mapInsert rest k v

/-- `Term` struct of `src/zipf.go` (final struct for terms/words). -/
structure Term where
  Word : String
  Count : Int
deriving DecidableEq, Repr

/-- The `Zipf` struct of `src/zipf.go`.  The `out io.Writer` field is passed
to `Report` as an argument instead, and the `sync.RWMutex` has no sequential
content (its concurrency behaviour is modelled separately for the
interleaving analysis of `Add`). -/
structure Zipf where
  path : String
  limit : Int
  symbols : Bool
  words : List (String × Int)
  counts : List (Int × String)
  collection : List Term
deriving DecidableEq, Repr

/-- `New` from `src/zipf.go`: rejects an empty directory, otherwise returns
a `Zipf` with empty maps and default (empty) collection. -/
def New (dir : String) (limit : Int) (symbols : Bool) : Except String Zipf :=
  if dir = "" then Except.error "empty dir"
  else Except.ok
    { path := dir
      limit := limit
      symbols := symbols
      words := []
      counts := []
      collection := [] }

/-- `(*Zipf).Add` from `src/zipf.go`, sequential semantics.  The source reads
`count, ok := z.words[s]`, writes `z.words[s] = 1` when `!ok`, and then
unconditionally writes `z.words[s] = count + 1` (an `int64` addition, hence
`wrap64`).  Returns the post-state and the returned error (`none` = `nil`). -/
def Zipf.Add (z : Zipf) (s : String) : Zipf × Option String :=
  if s = "" then (z, some "empty word")
  else
    let count := (mapLookup z.words s).getD 0
    let ok := (mapLookup z.words s).isSome
    let words1 := if ok then z.words else mapInsert z.words s 1
    ({ z with words := mapInsert words1 s (wrap64 (count + 1)) }, none)

/-- The selection loop of `(*Zipf).Report`: `i` is incremented for every map
entry and the entry is appended to the collection only while `i ≤ limit`
(`continue` skips the rest, so later entries are still counted). -/
def selectLoop : List (String × Int) → Int → Int → List Term
  | [], _, _ => []
  | (k, c) :: rest, i, limit =>
      if i + 1 > limit then selectLoop rest (i + 1) limit
      else ⟨k, c⟩ :: selectLoop rest (i + 1) limit

/-- The comparator of the sort used by `Report`: ascending by count. -/
def byCountLE (a b : Term) : Prop :=
  a.Count ≤ b.Count

instance : DecidableRel byCountLE := fun a b => Int.decLe a.Count b.Count

instance : IsTotal Term byCountLE := ⟨fun a b => Int.le_total a.Count b.Count⟩

instance : IsTrans Term byCountLE := ⟨fun _ _ _ => Int.le_trans⟩

/-- Modelled from the spec: the `ByCountAsc` sort order used by
`sort.Sort(ByCountAsc(z.collection))` is defined outside `src/zipf.go`; per
the spec the selected entries are sorted ascending by count with the order
among equal counts unspecified.  Insertion sort by `byCountLE` realises one
admissible outcome; every claim proved below is insensitive to the tie
order. -/
def sortByCountAsc (ts : List Term) : List Term :=
  List.insertionSort byCountLE ts

/-- The output line `fmt.Fprintf(z.out, "%s %d\n", x.Word, x.Count)`. -/
def lineOf (t : Term) : String :=
  t.Word ++ " " ++ toString t.Count ++ "\n"

/-- The print loop of `Report`: each line is handed to the writer and the
write's result is discarded, exactly as the source ignores the return values
of `fmt.Fprintf`. -/
def writeAll (w : String → Except String Unit) : List String → Unit
  | [] => ()
  | s :: rest =>
      let _ := w s
      writeAll w rest

/-- `(*Zipf).Report` from `src/zipf.go`.  The loop appends the first `limit`
map entries to the persisted field `z.collection`, `sort.Sort` then sorts
that slice in place, and each resulting entry is printed.  Returns the
post-state, the sequence of lines handed to the writer, and the returned
error (`none` = `nil`; the source ends in `return nil`). -/
def Zipf.Report (w : String → Except String Unit) (z : Zipf) :
    Zipf × List String × Option String :=
  let coll := z.collection ++ selectLoop z.words 0 z.limit
  let sorted := sortByCountAsc coll
  let lines := sorted.map lineOf
  let _ := writeAll w lines
  ({ z with collection := sorted }, lines, none)

/-- The count recorded for a term: the map value, `0` when absent (matching
the Go zero value read). -/
def countOf (z : Zipf) (t : String) : Int :=
  (mapLookup z.words t).getD 0

/-- Sequential composition of `Add` calls, threading the receiver state
(each call in the modelled sequences succeeds, so no abort is reached). -/
def runAdds (z : Zipf) : List String → Zipf
  | [] => z
  | s :: rest => runAdds (z.Add s).1 rest

/-! ### Walk (per-line control flow)

`Walk`'s closure, with the tokenizers as parameters. -/

/-- The inner `for _, w := range words { if err := z.Add(w); err != nil
{ return err } }` loops of `Walk`: add every token, aborting on the first
`Add` error. -/
def addAll (z : Zipf) : List String → Zipf × Option String
  | [] => (z, none)
  | t :: rest =>
      match z.Add t with
      | (z1, some e) => (z1, some e)
      | (z1, none) => addAll z1 rest

/-- One iteration of `Walk`'s line loop: skip empty lines; on `SplitWord`
failure `continue` to the next line (which also skips the symbol section);
otherwise add all words, then, when `z.symbols`, split and add the symbols,
`continue`-ing on a `SplitSymbol` failure.  Any `Add` error is returned,
aborting the walk. -/
def processLine (sw ss : String → Except String (List String)) (z : Zipf)
    (line : String) : Zipf × Option String :=
  if line.length < 1 then (z, none)
  else
    match sw line with
    | Except.error _ => (z, none)
    | Except.ok ws =>
        match addAll z ws with
        | (z1, some e) => (z1, some e)
        | (z1, none) =>
            if z1.symbols then
              match ss line with
              | Except.error _ => (z1, none)
              | Except.ok toks => addAll z1 toks
            else (z1, none)

/-- `Walk`'s loop over the lines of one file, aborting on the first error. -/
def processLines (sw ss : String → Except String (List String)) (z : Zipf) :
    List String → Zipf × Option String
  | [] => (z, none)
  | l :: rest =>
      match processLine sw ss z l with
      | (z1, some e) => (z1, some e)
      | (z1, none) => processLines sw ss z1 rest

/-- `(*Zipf).Walk` over the regular files under the root, each file given as
its list of lines: `filepath.Walk` aborts as soon as the callback returns a
non-nil error. -/
def Zipf.WalkFiles (sw ss : String → Except String (List String)) (z : Zipf) :
    List (List String) → Zipf × Option String
  | [] => (z, none)
  | f :: rest =>
      match processLines sw ss z f with
      | (z1, some e) => (z1, some e)
      | (z1, none) => Zipf.WalkFiles sw ss z1 rest

/-! ### Interleaving model for concurrent `Add`

`Add` acquires only `z.RLock()`, a *shared* read lock, so two concurrent
`Add` calls may both be inside the body at once and their internal steps may
interleave arbitrarily.  For a non-empty term the body performs three
observable steps on the shared map: read `count, ok := z.words[s]`, the
conditional write `z.words[s] = 1` when `!ok`, and the unconditional write
`z.words[s] = count + 1`.  A thread is a phase counter plus the locals
`count` and `ok`; a schedule is the list of which thread takes the next
step. -/

/-- Local state of one in-flight `Add` call: `phase` 0 = before the map
read, 1 = after the read, 2 = after the conditional first write, 3 = body
finished (the call returns `nil`); `count` and `ok` are the locals read in
phase 0. -/
structure TState where
  phase : Nat
  count : Int
  ok : Bool
deriving DecidableEq, Repr

/-- One step of an in-flight `Add s` call (`s` non-empty) on the shared
`words` map. -/
def stepThread (words : List (String × Int)) (t : TState) (s : String) :
    List (String × Int) × TState :=
  match t.phase with
  | 0 => (words,
      { phase := 1
        count := (mapLookup words s).getD 0
        ok := (mapLookup words s).isSome })
  | 1 => (if t.ok then words else mapInsert words s 1, { t with phase := 2 })
  | 2 => (mapInsert words s (wrap64 (t.count + 1)), { t with phase := 3 })
  | _ => (words, t)

/-- Run two concurrent `Add s` calls under a schedule (`true` = thread 1
takes the next step).  Returns the final map and both thread states. -/
def runSched : List Bool → List (String × Int) → TState → TState → String →
    List (String × Int) × TState × TState
  | [], words, t1, t2, _ => (words, t1, t2)
  | b :: rest, words, t1, t2, s =>
      if b then
        let p := stepThread words t1 s
        runSched rest p.1 p.2 t2 s
      else
        let p := stepThread words t2 s
        runSched rest p.1 t1 p.2 s

/-- A thread that has not yet started its `Add` body. -/
def tInit : TState := ⟨0, 0, false⟩

/-- The table invariant of the spec: every term present has count at least 1
and the empty string is never a key. -/
def Inv (z : Zipf) : Prop :=
  ∀ p ∈ z.words, 1 ≤ p.2 ∧ p.1 ≠ ""

instance (z : Zipf) : Decidable (Inv z) :=
  List.decidableBAll (fun p : String × Int => 1 ≤ p.2 ∧ p.1 ≠ "") z.words

/-! ### Concrete fixtures used by witnesses and counterexamples -/

/-- A sink that accepts every write. -/
def okWriter : String → Except String Unit := fun _ => Except.ok ()

/-- A fresh `Zipf` as produced by `New "p" 10 false`. -/
def zPlain : Zipf := ⟨"p", 10, false, [], [], []⟩

/-- A fresh `Zipf` with `symbols` enabled. -/
def zSym : Zipf := ⟨"p", 10, true, [], [], []⟩

/-- A table holding one term at count 1, limit 1, before any `Report`. -/
def zC7 : Zipf := ⟨"p", 1, false, [("a", 1)], [], []⟩

/-- Three terms with limit 2, before any `Report`. -/
def zC5 : Zipf := ⟨"p", 2, false, [("a", 1), ("b", 2), ("c", 3)], [], []⟩

/-- A table whose term "a" sits at the largest `int64` value. -/
def zMax : Zipf := ⟨"p", 10, false, [("a", 9223372036854775807)], [], []⟩

/-- A word splitter that fails on every line. -/
def swFail : String → Except String (List String) := fun _ => Except.error "bad line"

/-- A word splitter that yields one empty token on every line. -/
def swEmptyTok : String → Except String (List String) := fun _ => Except.ok [""]

/-- A symbol splitter that yields the single token "s" on every line. -/
def ssOne : String → Except String (List String) := fun _ => Except.ok ["s"]

/-- A symbol splitter that yields no tokens. -/
def ssNil : String → Except String (List String) := fun _ => Except.ok []

/-! ### Map lemmas -/

theorem mapLookup_mapInsert_self (m : List (String × Int)) (k : String) (v : Int) :
    mapLookup (mapInsert m k v) k = some v := by
  induction m with
  | nil => simp [mapInsert, mapLookup]
  | cons p rest ih =>
      obtain ⟨k0, v0⟩ := p
      by_cases h : k0 = k <;> simp [mapInsert, mapLookup, h, ih]

theorem mapLookup_mapInsert_ne (m : List (String × Int)) (k u : String) (v : Int)
    (h : k ≠ u) : mapLookup (mapInsert m k v) u = mapLookup m u := by
  induction m with
  | nil => simp [mapInsert, mapLookup, h]
  | cons p rest ih =>
      obtain ⟨k0, v0⟩ := p
      by_cases h0 : k0 = k
      · subst h0
        simp [mapInsert, mapLookup, h]
      · by_cases h1 : k0 = u
        · have hku : ¬u = k := fun hh => h hh.symm
          simp [mapInsert, mapLookup, h0, h1, hku]
        · simp [mapInsert, mapLookup, h0, h1, ih]

theorem mem_mapInsert (m : List (String × Int)) (k : String) (v : Int)
    (p : String × Int) (hp : p ∈ mapInsert m k v) : p ∈ m ∨ p = (k, v) := by
  induction m with
  | nil => simpa [mapInsert] using hp
  | cons q rest ih =>
      obtain ⟨k0, v0⟩ := q
      by_cases h : k0 = k
      · simp [mapInsert, h] at hp
        rcases hp with hp | hp
        · exact Or.inr (by simp [hp])
        · exact Or.inl (List.mem_cons_of_mem _ hp)
      · simp [mapInsert, h] at hp
        rcases hp with hp | hp
        · exact Or.inl (by simp [hp])
        · rcases ih hp with h1 | h1
          · exact Or.inl (List.mem_cons_of_mem _ h1)
          · exact Or.inr h1

theorem mapLookup_mem (m : List (String × Int)) (k : String) (v : Int)
    (h : mapLookup m k = some v) : (k, v) ∈ m := by
  induction m with
  | nil => simp [mapLookup] at h
  | cons q rest ih =>
      obtain ⟨k0, v0⟩ := q
      by_cases h0 : k0 = k
      · subst h0
        simp [mapLookup] at h
        simp [h]
      · simp [mapLookup, h0] at h
        exact List.mem_cons_of_mem _ (ih h)

/-! ### Arithmetic and `Add` lemmas -/

theorem wrap64_eq_self (x : Int) (h1 : -(2 ^ 63) ≤ x) (h2 : x < 2 ^ 63) :
    wrap64 x = x := by
  unfold wrap64
  omega

theorem Add_err_empty (z : Zipf) : (z.Add "").1 = z ∧ (z.Add "").2 = some "empty word" := by
  simp [Zipf.Add]

theorem Add_err_nonempty (z : Zipf) (s : String) (h : s ≠ "") : (z.Add s).2 = none := by
  simp [Zipf.Add, h]

theorem Add_lookup_self (z : Zipf) (s : String) (h : s ≠ "") :
    mapLookup (z.Add s).1.words s = some (wrap64 ((mapLookup z.words s).getD 0 + 1)) := by
  simp [Zipf.Add, h, mapLookup_mapInsert_self]

theorem Add_lookup_ne (z : Zipf) (s u : String) (h : s ≠ "") (hu : u ≠ s) :
    mapLookup (z.Add s).1.words u = mapLookup z.words u := by
  by_cases hok : (mapLookup z.words s).isSome <;>
    simp [Zipf.Add, h, hok, mapLookup_mapInsert_ne _ _ _ _ (Ne.symm hu)]

theorem Add_frame (z : Zipf) (s : String) :
    (z.Add s).1.path = z.path ∧ (z.Add s).1.limit = z.limit ∧
    (z.Add s).1.symbols = z.symbols ∧ (z.Add s).1.counts = z.counts ∧
    (z.Add s).1.collection = z.collection := by
  by_cases h : s = "" <;> simp [Zipf.Add, h]

theorem countOf_Add (z : Zipf) (s u : String) (hs : s ≠ "")
    (h0 : 0 ≤ countOf z s) (hlt : countOf z s + 1 < 2 ^ 63) :
    countOf (z.Add s).1 u = countOf z u + (if u = s then 1 else 0) := by
  by_cases hu : u = s
  · subst hu
    unfold countOf at h0 hlt ⊢
    rw [Add_lookup_self z u hs, Option.getD_some, wrap64_eq_self _ (by omega) hlt]
    simp
  · unfold countOf
    rw [Add_lookup_ne z s u hs hu]
    simp [hu]

theorem countOf_runAdds (ts : List String) :
    ∀ z : Zipf, "" ∉ ts → (∀ u, 0 ≤ countOf z u) →
      (∀ u, countOf z u + (ts.count u : Int) < 2 ^ 63) →
      ∀ t, countOf (runAdds z ts) t = countOf z t + (ts.count t : Int) := by
  induction ts with
  | nil =>
      intro z _ _ _ t
      simp [runAdds]
  | cons s rest ih =>
      intro z hne h0 hlt t
      have hs : s ≠ "" := by
        intro h
        exact hne (by simp [h])
      have hcnt : 1 ≤ (s :: rest).count s := by simp [List.count_cons]
      have hstep : ∀ u, countOf (z.Add s).1 u = countOf z u + (if u = s then 1 else 0) := by
        intro u
        refine countOf_Add z s u hs (h0 s) ?_
        have h1 := hlt s
        omega
      have h0' : ∀ u, 0 ≤ countOf (z.Add s).1 u := by
        intro u
        rw [hstep u]
        have := h0 u
        split <;> omega
      have hlt' : ∀ u, countOf (z.Add s).1 u + (rest.count u : Int) < 2 ^ 63 := by
        intro u
        rw [hstep u]
        have h1 := hlt u
        by_cases hus : u = s <;> simp [List.count_cons, hus] at h1 ⊢ <;> omega
      have hne' : "" ∉ rest := fun h => hne (List.mem_cons_of_mem _ h)
      have hrun : runAdds z (s :: rest) = runAdds (z.Add s).1 rest := rfl
      rw [hrun, ih (z.Add s).1 hne' h0' hlt' t, hstep t]
      by_cases hts : t = s
      · simp [List.count_cons, hts]
        omega
      · simp [List.count_cons, hts]

/-! ### `Report` selection lemmas -/

theorem selectLoop_length (ws : List (String × Int)) :
    ∀ i limit : Int, (selectLoop ws i limit).length = min (limit - i).toNat ws.length := by
  induction ws with
  | nil =>
      intro i limit
      simp [selectLoop]
  | cons p rest ih =>
      intro i limit
      obtain ⟨k, c⟩ := p
      by_cases h : i + 1 > limit <;> simp [selectLoop, h, ih] <;> omega

theorem selectLoop_mem (ws : List (String × Int)) :
    ∀ i limit : Int, ∀ t ∈ selectLoop ws i limit, (t.Word, t.Count) ∈ ws := by
  induction ws with
  | nil =>
      intro i limit t ht
      simp [selectLoop] at ht
  | cons p rest ih =>
      intro i limit t ht
      obtain ⟨k, c⟩ := p
      by_cases h : i + 1 > limit
      · rw [selectLoop] at ht
        rw [if_pos h] at ht
        exact List.mem_cons_of_mem _ (ih _ _ t ht)
      · rw [selectLoop] at ht
        rw [if_neg h] at ht
        rcases List.mem_cons.mp ht with ht1 | ht1
        · simp [ht1]
        · exact List.mem_cons_of_mem _ (ih _ _ t ht1)

/-! ### Claims -/

/-- C1: the claim that `Add` is safe under concurrency — that for every
interleaving the final count of a term equals the number of successful `Add`
calls for it — fails on the code.  `Add` takes only the shared read lock
(`z.RLock()`), so two concurrent `Add "a"` calls on an empty table may both
be inside the body at once.  Under the schedule read/read/conditional
write/conditional write/write/write both calls run to completion (phase 3,
i.e. both return `nil`), yet the final table maps "a" to 1 instead of 2: one
increment is lost. -/
theorem c1_concurrent_add_loses_update :
    (runSched [true, false, true, false, true, false] [] tInit tInit "a").2.1.phase = 3 ∧
    (runSched [true, false, true, false, true, false] [] tInit tInit "a").2.2.phase = 3 ∧
    mapLookup (runSched [true, false, true, false, true, false] [] tInit tInit "a").1 "a"
      = some 1 := by
  decide

/-- C2 (amended): counts are Go `int64` values, so the increment wraps at
`2 ^ 63`.  Provided the pre-call count of `t` is non-negative and below
`2 ^ 63 - 1`, a sequential `Add t` with `t` non-empty succeeds, stores
exactly the old count plus one (count 1 when `t` was absent), and leaves
every other key's binding unchanged; and after any sequence of fewer than
`2 ^ 63` `Add` calls with no empty strings, starting from an empty table,
the count recorded for each term `t` equals the number of `Add t` calls in
the sequence. -/
theorem c2_add_increments_count :
    (∀ z : Zipf, ∀ s, s ≠ "" → 0 ≤ countOf z s → countOf z s + 1 < 2 ^ 63 →
      (z.Add s).2 = none ∧
      mapLookup (z.Add s).1.words s = some (countOf z s + 1) ∧
      ∀ u, u ≠ s → mapLookup (z.Add s).1.words u = mapLookup z.words u) ∧
    (∀ z : Zipf, ∀ ts : List String, z.words = [] → "" ∉ ts →
      (ts.length : Int) < 2 ^ 63 →
      ∀ t, countOf (runAdds z ts) t = (ts.count t : Int)) := by
  constructor
  · intro z s hs h0 hlt
    refine ⟨Add_err_nonempty z s hs, ?_, fun u hu => Add_lookup_ne z s u hs hu⟩
    unfold countOf at h0 hlt ⊢
    rw [Add_lookup_self z s hs, wrap64_eq_self _ (by omega) hlt]
  · intro z ts hw hne hlen t
    have h0 : ∀ u, 0 ≤ countOf z u := by
      intro u
      simp [countOf, hw, mapLookup]
    have hlt : ∀ u, countOf z u + (ts.count u : Int) < 2 ^ 63 := by
      intro u
      have hcl := List.count_le_length u ts
      simp [countOf, hw, mapLookup]
      omega
    have h := countOf_runAdds ts z hne h0 hlt t
    simpa [countOf, hw, mapLookup] using h

/-- Witness for C2: on a fresh table, `Add "a"` yields count 1, and the
sequence `["a", "b", "a"]` yields count 2 for "a". -/
theorem c2_add_increments_count_witness :
    mapLookup (zPlain.Add "a").1.words "a" = some (countOf zPlain "a" + 1) ∧
    countOf (runAdds zPlain ["a", "b", "a"]) "a" = ((["a", "b", "a"] : List String).count "a" : Int) :=
  ⟨(c2_add_increments_count.1 zPlain "a" (by decide) (by decide) (by decide)).2.1,
   c2_add_increments_count.2 zPlain ["a", "b", "a"] rfl (by decide) (by decide) "a"⟩

/-- C2 is false as stated: at a table binding "a" to the largest `int64`
value, `Add "a"` succeeds but the stored count wraps to `-2 ^ 63` instead of
increasing by exactly 1. -/
theorem c2_counterexample_overflow :
    (zMax.Add "a").2 = none ∧
    mapLookup (zMax.Add "a").1.words "a" = some (-9223372036854775808) ∧
    ¬ mapLookup (zMax.Add "a").1.words "a" = some (9223372036854775807 + 1) := by
  decide

/-- C3: `Add ""` fails with the "empty word" error and leaves the receiver —
in particular the words table, its key set and every count — completely
unchanged, and the empty string is the only input on which `Add` fails. -/
theorem c3_add_empty_only_failure :
    ∀ z : Zipf, (z.Add "").2 = some "empty word" ∧ (z.Add "").1 = z ∧
      ∀ s, s ≠ "" → (z.Add s).2 = none := by
  intro z
  exact ⟨(Add_err_empty z).2, (Add_err_empty z).1, fun s hs => Add_err_nonempty z s hs⟩

/-- Witness for C3 at a concrete table and the concrete non-empty term "a". -/
theorem c3_add_empty_only_failure_witness :
    (zC7.Add "").2 = some "empty word" ∧ (zC7.Add "").1 = zC7 ∧ (zC7.Add "a").2 = none :=
  ⟨(c3_add_empty_only_failure zC7).1, (c3_add_empty_only_failure zC7).2.1,
   (c3_add_empty_only_failure zC7).2.2 "a" (by decide)⟩

/-- C4 (amended): the invariant — every stored term has count at least 1 and
the empty string is never a key — holds after `New` and is preserved by
every `Add` call, successful or failing, and no key is removed nor any count
decreased, *provided* the pre-call count of the added term stays below the
largest `int64` value (counts are Go `int64` values and the increment wraps
at `2 ^ 63`). -/
theorem c4_table_invariant :
    (∀ dir limit symbols z0, New dir limit symbols = Except.ok z0 → Inv z0) ∧
    (∀ z : Zipf, ∀ s, Inv z → countOf z s + 1 < 2 ^ 63 →
      Inv (z.Add s).1 ∧
      ∀ k c, mapLookup z.words k = some c →
        ∃ c2, mapLookup (z.Add s).1.words k = some c2 ∧ c ≤ c2) := by
  constructor
  · intro dir limit symbols z0 h
    by_cases hd : dir = ""
    · simp [New, hd] at h
    · simp [New, hd] at h
      simp [Inv, ← h]
  · intro z s hInv hlt
    by_cases hs : s = ""
    · constructor
      · simpa [Zipf.Add, hs] using hInv
      · intro k c hk
        exact ⟨c, by simpa [Zipf.Add, hs] using hk, le_refl c⟩
    · have h0 : 0 ≤ countOf z s := by
        unfold countOf
        cases hv : mapLookup z.words s with
        | none => simp
        | some v =>
            have := (hInv (s, v) (mapLookup_mem _ _ _ hv)).1
            simp
            omega
      have hcOf : ∀ u, countOf (z.Add s).1 u = countOf z u + (if u = s then 1 else 0) :=
        fun u => countOf_Add z s u hs h0 hlt
      constructor
      · intro p hp
        have hmem1 : p ∈ (if (mapLookup z.words s).isSome then z.words
            else mapInsert z.words s 1) ∨ p = (s, wrap64 (countOf z s + 1)) := by
          refine mem_mapInsert _ _ _ p ?_
          simpa [Zipf.Add, hs, countOf] using hp
        have hw : wrap64 (countOf z s + 1) = countOf z s + 1 :=
          wrap64_eq_self _ (by omega) hlt
        rcases hmem1 with hm | hm
        · by_cases hok : (mapLookup z.words s).isSome
          · rw [if_pos hok] at hm
            exact hInv p hm
          · rw [if_neg hok] at hm
            rcases mem_mapInsert _ _ _ p hm with hm1 | hm1
            · exact hInv p hm1
            · rw [hm1]
              exact ⟨by norm_num, hs⟩
        · rw [hm, hw]
          exact ⟨by omega, hs⟩
      · intro k c hk
        by_cases hks : k = s
        · subst hks
          have hc0 : countOf z k = c := by simp [countOf, hk]
          refine ⟨c + 1, ?_, by omega⟩
          rw [Add_lookup_self z k hs]
          unfold countOf at hc0 hlt h0
          rw [wrap64_eq_self _ (by omega) (by omega), hc0]
        · exact ⟨c, by rw [Add_lookup_ne z s k hs hks, hk], le_refl c⟩

/-- Witness for C4: the invariant holds for the table produced by `New` and
is preserved by a concrete `Add` on a concrete table. -/
theorem c4_table_invariant_witness :
    Inv zPlain ∧ Inv (zC7.Add "a").1 :=
  ⟨c4_table_invariant.1 "p" 10 false zPlain (by simp [New, zPlain]),
   (c4_table_invariant.2 zC7 "a" (by decide) (by decide)).1⟩

/-- C4 is false as stated: a table binding "a" to the largest `int64` value
satisfies the invariant, yet `Add "a"` wraps the count to `-2 ^ 63`,
violating count ≥ 1 and decreasing a stored count. -/
theorem c4_counterexample_overflow :
    Inv zMax ∧ ¬ Inv (zMax.Add "a").1 ∧
    mapLookup (zMax.Add "a").1.words "a" = some (-9223372036854775808) := by
  decide

/-- C5: starting from an empty persisted collection (its state after `New`,
never touched by `Add`) and a limit ≥ 0, `Report` writes exactly
min(limit, number of distinct terms) lines; in particular zero lines when
the limit is 0 and zero lines when the table is empty. -/
theorem c5_report_line_count (w : String → Except String Unit) (z : Zipf)
    (hc : z.collection = []) (_hl : 0 ≤ z.limit) :
    ((Zipf.Report w z).2.1).length = min z.limit.toNat z.words.length := by
  simp [Zipf.Report, hc, sortByCountAsc, selectLoop_length]

/-- Witness for C5 on a three-term table with limit 2. -/
theorem c5_report_line_count_witness :
    ((Zipf.Report okWriter zC5).2.1).length = min zC5.limit.toNat zC5.words.length :=
  c5_report_line_count okWriter zC5 rfl (by decide)

/-- C6: starting from an empty persisted collection, the lines `Report`
hands to the sink are exactly the formatted `<word> <count>\n` lines of a
list of entries of the words table, sorted non-decreasing by count. -/
theorem c6_report_sorted_lines (w : String → Except String Unit) (z : Zipf)
    (hc : z.collection = []) :
    ∃ ts : List Term, (Zipf.Report w z).2.1 = ts.map lineOf ∧
      List.Pairwise byCountLE ts ∧ ∀ t ∈ ts, (t.Word, t.Count) ∈ z.words := by
  refine ⟨sortByCountAsc (selectLoop z.words 0 z.limit), ?_, ?_, ?_⟩
  · simp [Zipf.Report, hc]
  · exact List.sorted_insertionSort byCountLE (selectLoop z.words 0 z.limit)
  · intro t ht
    have ht1 : t ∈ selectLoop z.words 0 z.limit := by
      simpa [sortByCountAsc] using ht
    exact selectLoop_mem z.words 0 z.limit t ht1

/-- Witness for C6 on a three-term table with limit 2. -/
theorem c6_report_sorted_lines_witness :
    ∃ ts : List Term, (Zipf.Report okWriter zC5).2.1 = ts.map lineOf ∧
      List.Pairwise byCountLE ts ∧ ∀ t ∈ ts, (t.Word, t.Count) ∈ zC5.words :=
  c6_report_sorted_lines okWriter zC5 rfl

/-- C7 is false as stated: `Report` appends the selected entries to the
persisted `collection` field and sorts it in place, so the call does change
a field of the `Zipf` value, and a second `Report` on the same table and
limit writes different lines — on the concrete table {"a" ↦ 1} with limit 1
the first call writes one line and the second writes two. -/
theorem c7_counterexample_report_not_pure :
    ¬ ((Zipf.Report okWriter zC7).1 = zC7 ∧
       (Zipf.Report okWriter (Zipf.Report okWriter zC7).1).2.1
         = (Zipf.Report okWriter zC7).2.1) := by
  decide

/-- C7 (amended): `Report` leaves `path`, `limit`, `symbols`, `words` and
`counts` unchanged but replaces the persisted `collection` field with the
sorted concatenation of its previous value and the newly selected entries;
the lines written are exactly that accumulated collection, formatted — so
repeated `Report` calls accumulate instead of repeating the same output. -/
theorem c7_report_frame :
    ∀ (w : String → Except String Unit) (z : Zipf),
      (Zipf.Report w z).1.path = z.path ∧
      (Zipf.Report w z).1.limit = z.limit ∧
      (Zipf.Report w z).1.symbols = z.symbols ∧
      (Zipf.Report w z).1.words = z.words ∧
      (Zipf.Report w z).1.counts = z.counts ∧
      (Zipf.Report w z).1.collection
        = sortByCountAsc (z.collection ++ selectLoop z.words 0 z.limit) ∧
      (Zipf.Report w z).2.1 = ((Zipf.Report w z).1.collection).map lineOf :=
  fun _ _ => ⟨rfl, rfl, rfl, rfl, rfl, rfl, rfl⟩

/-- C8 is false as stated: when `SplitWord` fails on a line, the `continue`
in `Walk` skips the rest of the line body, so with `symbols` enabled the
symbol splitter is *not* invoked on that line and none of its tokens are
added — here the symbol splitter would yield "s" on the line "x", yet after
processing the line the table does not contain "s" and is unchanged. -/
theorem c8_counterexample_symbols_not_split :
    zSym.symbols = true ∧
    swFail "x" = Except.error "bad line" ∧
    ssOne "x" = Except.ok ["s"] ∧
    processLine swFail ssOne zSym "x" = (zSym, none) ∧
    mapLookup (processLine swFail ssOne zSym "x").1.words "s" = none :=
  ⟨rfl, rfl, rfl, rfl, rfl⟩

/-- C8 (amended): when `SplitWord` fails on a line, the walk does not abort,
but the entire line is skipped: the table is left unchanged and no error is
returned, and `SplitSymbol` is never consulted for that line (the result is
the same for every symbol splitter `ss`). -/
theorem c8_splitword_failure_skips_whole_line :
    ∀ (sw ss : String → Except String (List String)) (z : Zipf) (line e : String),
      sw line = Except.error e → processLine sw ss z line = (z, none) := by
  intro sw ss z line e h
  by_cases hl : line.length < 1 <;> simp [processLine, hl, h]

/-- Witness for C8 (amended) at a concrete failing word splitter. -/
theorem c8_splitword_failure_skips_whole_line_witness :
    processLine swFail ssOne zSym "x" = (zSym, none) :=
  c8_splitword_failure_skips_whole_line swFail ssOne zSym "x" "bad line" rfl

/-- C9: an empty token reaching `Add` aborts the walk: the token loop
returns the `Add` error, a line whose processing returns an error stops the
per-file line loop with exactly that result, and a file whose processing
returns an error stops the whole walk with exactly that result — no further
lines or files are processed. -/
theorem c9_empty_token_aborts_walk :
    (∀ z : Zipf, ∀ ws : List String, "" ∈ ws → ((addAll z ws).2).isSome) ∧
    (∀ sw ss, ∀ z : Zipf, ∀ l ws, ¬ l.length < 1 → sw l = Except.ok ws → "" ∈ ws →
      processLine sw ss z l = addAll z ws) ∧
    (∀ sw ss, ∀ z : Zipf, ∀ l rest, ((processLine sw ss z l).2).isSome →
      processLines sw ss z (l :: rest) = processLine sw ss z l) ∧
    (∀ sw ss, ∀ z : Zipf, ∀ f rest, ((processLines sw ss z f).2).isSome →
      Zipf.WalkFiles sw ss z (f :: rest) = processLines sw ss z f) := by
  have A : ∀ ws : List String, ∀ z : Zipf, "" ∈ ws → ((addAll z ws).2).isSome := by
    intro ws
    induction ws with
    | nil =>
        intro z h
        simp at h
    | cons t rest ih =>
        intro z h
        rcases List.mem_cons.mp h with h1 | h1
        · simp [addAll, ← h1, Zipf.Add]
        · rcases hzt : z.Add t with ⟨z1, err⟩
          rcases err with _ | e
          · simpa [addAll, hzt] using ih z1 h1
          · simp [addAll, hzt]
  refine ⟨fun z ws h => A ws z h, ?_, ?_, ?_⟩
  · intro sw ss z l ws hl hsw hmem
    have h2 := A ws z hmem
    rcases haz : addAll z ws with ⟨z1, err⟩
    rcases err with _ | e
    · rw [haz] at h2
      simp at h2
    · simp [processLine, hl, hsw, haz]
  · intro sw ss z l rest hsome
    rcases hpl : processLine sw ss z l with ⟨z1, err⟩
    rcases err with _ | e
    · rw [hpl] at hsome
      simp at hsome
    · simp [processLines, hpl]
  · intro sw ss z f rest hsome
    rcases hpf : processLines sw ss z f with ⟨z1, err⟩
    rcases err with _ | e
    · rw [hpf] at hsome
      simp at hsome
    · simp [Zipf.WalkFiles, hpf]

/-- Witness for C9: a concrete empty token makes the add loop fail, and a
walk over two files stops at the first file, whose processing failed on that
token. -/
theorem c9_empty_token_aborts_walk_witness :
    ((addAll zPlain ([""] : List String)).2).isSome ∧
    Zipf.WalkFiles swEmptyTok ssNil zPlain [["x"], ["y"]]
      = processLines swEmptyTok ssNil zPlain ["x"] :=
  ⟨c9_empty_token_aborts_walk.1 zPlain [""] (by decide),
   c9_empty_token_aborts_walk.2.2.2 swEmptyTok ssNil zPlain ["x"] [["y"]] rfl⟩

/-- C10: `Report` always returns nil, for every table, limit and output
sink — the results of the formatted writes are discarded, so even a sink
that fails every write never surfaces as a run failure. -/
theorem c10_report_always_nil :
    ∀ (w : String → Except String Unit) (z : Zipf), (Zipf.Report w z).2.2 = none :=
  fun _ _ => rfl

end Zipfs
